import Mathlib

/-!
Verification of the portfolio-weight sanitization and statistics pipeline of
the buy-and-hold strategy notebook.

Modelling conventions.  A dataframe cell is an `Option ℚ`: `none` stands for
a missing value (NaN), `some v` for the finite value `v`.  A (time × asset)
matrix is a list of rows, one row per trading day, each row a list of
per-asset cells.  Machine floating point is modelled by exact rationals;
quantities whose computation requires a square root (volatility, Sharpe
ratio, Pearson correlation) take values in the reals.
-/

namespace BuyHold

/-- Sum of absolute values of the present cells of a row, skipping missing
values: the model of `row.abs().sum(skipna=True)`. -/
def absSum (row : List (Option ℚ)) : ℚ :=
  ((row.filterMap id).map (fun v => |v|)).sum

/-- Gross exposure of a fully materialized (NaN-free) row of weights:
the sum of absolute weights. -/
def grossExposure (xs : List ℚ) : ℚ :=
  (xs.map (fun v => |v|)).sum

/-- Divide every cell of a row by the row's absolute sum, the model of
`row.div(row.abs().sum(axis=1), axis=0)`.  When the divisor is `0` every
cell of the row is missing: a present cell is then necessarily `0`, and
`0 / 0` is NaN in the source's arithmetic; a missing cell stays missing. -/
def normalizeRow (row : List (Option ℚ)) : List (Option ℚ) :=
  if absSum row = 0 then row.map (fun _ => none)
  else row.map (fun x => x.map (fun v => v / absSum row))

/-- Replace the missing cells of a row by `0`: the model of `fillna(0.0)`. -/
def fillna0 (row : List (Option ℚ)) : List ℚ :=
  row.map (fun x => x.getD 0)

/-- The weight construction of the notebook: divide each day's row by the
day's sum of absolute values, then zero-fill the missing cells. -/
def normalize (w : List (List (Option ℚ))) : List (List ℚ) :=
  w.map (fun row => fillna0 (normalizeRow row))

theorem absSum_nonneg (row : List (Option ℚ)) : 0 ≤ absSum row := by
  refine List.sum_nonneg ?_
  intro x hx
  rcases List.mem_map.1 hx with ⟨v, _, rfl⟩
  exact abs_nonneg v

theorem abs_le_absSum (row : List (Option ℚ)) (v : ℚ) (hv : some v ∈ row) :
    |v| ≤ absSum row := by
  induction row with
  | nil => cases hv
  | cons x xs ih =>
    rcases List.mem_cons.1 hv with hv | hv
    · subst hv
      simp only [absSum, List.filterMap_cons, id, List.map_cons, List.sum_cons]
      have h := absSum_nonneg xs
      simp only [absSum] at h
      linarith
    · have h := ih hv
      cases x with
      | none => simpa [absSum, List.filterMap_cons] using h
      | some u =>
        simp only [absSum, List.filterMap_cons, id, List.map_cons, List.sum_cons]
        simp only [absSum] at h
        have := abs_nonneg u
        linarith

theorem grossExposure_fillna0_div (row : List (Option ℚ)) (s : ℚ) (hs : 0 < s) :
    grossExposure (fillna0 (row.map (fun x => x.map (fun v => v / s)))) =
      absSum row / s := by
  induction row with
  | nil => simp [grossExposure, fillna0, absSum]
  | cons x xs ih =>
    cases x with
    | none =>
      simpa [grossExposure, fillna0, absSum, List.filterMap_cons] using ih
    | some u =>
      simp only [List.map_cons, Option.map_some', fillna0, grossExposure,
        Option.getD_some, List.sum_cons, absSum, List.filterMap_cons, id] at ih ⊢
      rw [abs_div, abs_of_pos hs, ih, div_add_div_same]

theorem absSum_pos_of_ne (row : List (Option ℚ)) (h : absSum row ≠ 0) :
    0 < absSum row :=
  lt_of_le_of_ne (absSum_nonneg row) (Ne.symm h)

/-- A zero-denominator day comes out all zero after the zero fill. -/
theorem fillna0_normalizeRow_zero (row : List (Option ℚ)) (h0 : absSum row = 0) :
    fillna0 (normalizeRow row) = List.replicate row.length 0 := by
  simp only [normalizeRow]
  rw [if_pos h0]
  simp [fillna0, List.map_map, List.eq_replicate_iff]

/-- Entry formula of a normalized day with nonzero denominator. -/
theorem getD_fillna0_normalizeRow (row : List (Option ℚ)) (hne : absSum row ≠ 0)
    (j : Nat) (hj : j < row.length) :
    (fillna0 (normalizeRow row)).getD j 0 = (row.getD j none).getD 0 / absSum row := by
  simp only [normalizeRow]
  rw [if_neg hne]
  simp only [fillna0, List.map_map]
  have hj' : j < (row.map ((fun x => x.getD 0) ∘ fun x => x.map (fun v => v / absSum row))).length := by
    simpa using hj
  rw [List.getD_eq_getElem _ _ hj', List.getElem_map,
    List.getD_eq_getElem _ _ hj]
  cases row[j] with
  | none => simp
  | some v => simp

/-- Each member of a normalized, zero-filled day is `0` or an original
present value scaled by the day's absolute sum. -/
theorem mem_fillna0_normalizeRow (row : List (Option ℚ)) (x : ℚ)
    (hx : x ∈ fillna0 (normalizeRow row)) :
    x = 0 ∨ ∃ v, some v ∈ row ∧ x = v / absSum row := by
  by_cases h0 : absSum row = 0
  · rw [fillna0_normalizeRow_zero row h0] at hx
    left
    exact (List.eq_of_mem_replicate hx)
  · simp only [normalizeRow] at hx
    rw [if_neg h0] at hx
    simp only [fillna0, List.map_map] at hx
    rcases List.mem_map.1 hx with ⟨a, hmem, ha⟩
    cases a with
    | none => left; simpa using ha.symm
    | some v =>
      right
      refine ⟨v, hmem, ?_⟩
      simpa using ha.symm

/-- Claim C1: `normalize` divides each day's weights by that day's sum of
absolute weights; if that denominator is 0, the whole day becomes 0 (never
an undefined value), and consequently each day's post-normalization sum of
absolute weights is exactly 0 or exactly 1. -/
theorem normalize_unit_gross (w : List (List (Option ℚ))) :
    ∀ row ∈ w,
      (absSum row = 0 → fillna0 (normalizeRow row) = List.replicate row.length 0) ∧
      (absSum row ≠ 0 → ∀ j, j < row.length →
        (fillna0 (normalizeRow row)).getD j 0 = (row.getD j none).getD 0 / absSum row) ∧
      (grossExposure (fillna0 (normalizeRow row)) = 0 ∨
        grossExposure (fillna0 (normalizeRow row)) = 1) := by
  intro row _
  refine ⟨fillna0_normalizeRow_zero row, getD_fillna0_normalizeRow row, ?_⟩
  by_cases h0 : absSum row = 0
  · left
    rw [fillna0_normalizeRow_zero row h0]
    simp [grossExposure, List.sum_replicate]
  · right
    have hpos := absSum_pos_of_ne row h0
    have h := grossExposure_fillna0_div row (absSum row) hpos
    simp only [normalizeRow]
    rw [if_neg h0, h, div_self h0]

/-- Witness for C1 at a concrete weight matrix. -/
theorem normalize_unit_gross_witness :
    grossExposure (fillna0 (normalizeRow [some 3, none, some (-1)])) = 0 ∨
      grossExposure (fillna0 (normalizeRow [some 3, none, some (-1)])) = 1 :=
  (normalize_unit_gross [[some 3, none, some (-1)]] [some 3, none, some (-1)]
    (by simp)).2.2

/-- Number of assets whose `is_liquid` cell is `1` on a day. -/
def liquidCount (row : List (Option ℚ)) : Nat :=
  row.countP (fun x => decide (x = some 1))

theorem absSum_binary (row : List (Option ℚ))
    (hb : ∀ x ∈ row, x = none ∨ x = some 0 ∨ x = some 1) :
    absSum row = (liquidCount row : ℚ) := by
  induction row with
  | nil => simp [absSum, liquidCount]
  | cons x xs ih =>
    have hx := hb x (List.mem_cons_self x xs)
    have ih' := ih (fun y hy => hb y (List.mem_cons_of_mem x hy))
    simp only [absSum, liquidCount, List.filterMap_cons, List.countP_cons] at ih' ⊢
    rcases hx with rfl | rfl | rfl
    · simp only [id]
      rw [ih']
      simp
    · simp only [id, List.map_cons, List.sum_cons]
      rw [ih']
      simp
    · simp only [id, List.map_cons, List.sum_cons]
      rw [ih']
      norm_num
      ring

theorem sum_eq_grossExposure (xs : List ℚ) :
    (∀ x ∈ xs, 0 ≤ x) → xs.sum = grossExposure xs := by
  induction xs with
  | nil => intro _; simp [grossExposure]
  | cons x xs ih =>
    intro h
    simp only [grossExposure, List.map_cons, List.sum_cons]
    rw [abs_of_nonneg (h x (List.mem_cons_self x xs))]
    have h' := ih (fun y hy => h y (List.mem_cons_of_mem x hy))
    simp only [grossExposure] at h'
    rw [h']

/-- Claim C10: since `is_liquid` is 0/1-valued (possibly missing), the
buy-and-hold weights are non-negative; a day with `n ≥ 1` liquid assets
assigns `1/n` to each liquid asset and `0` elsewhere; a day with no liquid
assets gets all-zero weights; and net exposure equals gross exposure. -/
theorem buy_and_hold_long_only (w : List (List (Option ℚ)))
    (hb : ∀ row ∈ w, ∀ x ∈ row, x = none ∨ x = some 0 ∨ x = some 1) :
    ∀ i, i < w.length →
      (∀ x ∈ (normalize w).getD i [], 0 ≤ x) ∧
      (liquidCount (w.getD i []) = 0 →
        (normalize w).getD i [] = List.replicate (w.getD i []).length 0) ∧
      (liquidCount (w.getD i []) ≠ 0 → ∀ j, j < (w.getD i []).length →
        ((normalize w).getD i []).getD j 0 =
          if (w.getD i []).getD j none = some 1
            then ((liquidCount (w.getD i [])) : ℚ)⁻¹ else 0) ∧
      ((normalize w).getD i []).sum = grossExposure ((normalize w).getD i []) := by
  intro i hi
  set row := w.getD i [] with hrow
  have hmem : row ∈ w := by
    rw [hrow, List.getD_eq_getElem _ _ hi]
    exact List.getElem_mem hi
  have hbrow := hb row hmem
  have hout : (normalize w).getD i [] = fillna0 (normalizeRow row) := by
    have hi' : i < (normalize w).length := by simpa [normalize] using hi
    rw [List.getD_eq_getElem _ _ hi', hrow, List.getD_eq_getElem _ _ hi]
    simp [normalize]
  have habs := absSum_binary row hbrow
  have hnonneg : ∀ x ∈ (normalize w).getD i [], 0 ≤ x := by
    rw [hout]
    intro x hx
    rcases mem_fillna0_normalizeRow row x hx with rfl | ⟨v, hv, rfl⟩
    · exact le_refl 0
    · rcases hbrow (some v) hv with h | h | h
      · cases h
      · rw [Option.some_inj.1 h]
        simp
      · rw [Option.some_inj.1 h]
        exact div_nonneg zero_le_one (absSum_nonneg row)
  refine ⟨hnonneg, ?_, ?_, sum_eq_grossExposure _ hnonneg⟩
  · intro hn
    rw [hout]
    refine fillna0_normalizeRow_zero row ?_
    rw [habs, hn]
    norm_num
  · intro hn j hj
    have hne : absSum row ≠ 0 := by
      rw [habs]
      exact_mod_cast Nat.cast_ne_zero.2 hn
    rw [hout, getD_fillna0_normalizeRow row hne j hj]
    have hcell : row.getD j none ∈ row := by
      rw [List.getD_eq_getElem _ _ hj]
      exact List.getElem_mem hj
    rcases hbrow _ hcell with h | h | h
    · rw [h, if_neg (by simp)]
      simp
    · rw [h, if_neg (by simp)]
      simp
    · rw [h, if_pos rfl]
      simp [habs, one_div]

/-- Witness for C10 at a concrete `is_liquid` matrix with two liquid
assets, one illiquid asset and one missing cell on its single day. -/
theorem buy_and_hold_long_only_witness :
    ((normalize [[some 1, some 0, none, some 1]]).getD 0 []).getD 0 0 = (2 : ℚ)⁻¹ := by
  have h := (buy_and_hold_long_only [[some 1, some 0, none, some 1]]
    (by decide) 0 (by decide)).2.2.1 (by decide) 0 (by decide)
  simpa [liquidCount] using h

theorem getD_zipWith {α β γ : Type} (f : α → β → γ) (as : List α) (bs : List β)
    (i : Nat) (ha : i < as.length) (hb : i < bs.length) (da : α) (db : β) (dc : γ) :
    (List.zipWith f as bs).getD i dc = f (as.getD i da) (bs.getD i db) := by
  induction as generalizing bs i with
  | nil => cases ha
  | cons a as ih =>
    cases bs with
    | nil => cases hb
    | cons b bs =>
      cases i with
      | zero => simp
      | succ n =>
        simp only [List.zipWith_cons_cons, List.getD_cons_succ]
        exact ih bs n (Nat.lt_of_succ_lt_succ ha) (Nat.lt_of_succ_lt_succ hb)

theorem getD_replicate_zero (n j : Nat) :
    (List.replicate n (0 : ℚ)).getD j 0 = 0 := by
  rcases Nat.lt_or_ge j n with h | h
  · rw [List.getD_eq_getElem _ _ (by simpa using h)]
    simp
  · rw [List.getD_eq_default _ _ (by simpa using h)]

/-- Modelled from the spec: `qne.drop_bad_days` is called by the notebook but
its implementation is not part of this repository.  Per the spec's
`repair_bad_days` contract, a cell the liquidity mask forbids is forced to 0
before renormalization.  `true` marks a liquid asset. -/
def zeroIlliquidRow (row : List (Option ℚ)) (liq : List Bool) : List (Option ℚ) :=
  List.zipWith (fun x l => if l then x else some 0) row liq

/-- Modelled from the spec: one day of `repair_bad_days` — zero the
illiquid cells, renormalize, and zero the whole day when the resulting
gross exposure deviates from 1 beyond the tolerance. -/
def repairDay (row : List (Option ℚ)) (liq : List Bool) (tol : ℚ) : List ℚ :=
  let cleaned := fillna0 (normalizeRow (zeroIlliquidRow row liq))
  if tol < |grossExposure cleaned - 1| then List.replicate cleaned.length 0 else cleaned

/-- Modelled from the spec: `repair_bad_days` applied day by day. -/
def repair_bad_days (w : List (List (Option ℚ))) (liq : List (List Bool)) (tol : ℚ) :
    List (List ℚ) :=
  List.zipWith (fun row lrow => repairDay row lrow tol) w liq

theorem repairDay_illiquid_zero (row : List (Option ℚ)) (liq : List Bool) (tol : ℚ)
    (j : Nat) (hj : j < row.length) (hj' : j < liq.length)
    (hliq : liq.getD j true = false) :
    (repairDay row liq tol).getD j 0 = 0 := by
  have hlen : j < (zeroIlliquidRow row liq).length := by
    simpa [zeroIlliquidRow, List.length_zipWith] using And.intro hj hj'
  have hcell : (zeroIlliquidRow row liq).getD j none = some 0 := by
    rw [zeroIlliquidRow, getD_zipWith _ row liq j hj hj' none true, hliq]
    simp
  rw [repairDay]
  by_cases hflag :
      tol < |grossExposure (fillna0 (normalizeRow (zeroIlliquidRow row liq))) - 1|
  · rw [if_pos hflag]
    exact getD_replicate_zero _ j
  · rw [if_neg hflag]
    by_cases h0 : absSum (zeroIlliquidRow row liq) = 0
    · rw [fillna0_normalizeRow_zero _ h0]
      exact getD_replicate_zero _ j
    · rw [getD_fillna0_normalizeRow _ h0 j hlen, hcell]
      simp

/-- Claim C2: after `repair_bad_days`, no asset marked illiquid on a day
carries a nonzero weight that day, and every day either has all weights
zero or a gross exposure within the tolerance of 1. -/
theorem repair_bad_days_spec (w : List (List (Option ℚ)))
    (liq : List (List Bool)) (tol : ℚ) :
    (∀ i j, i < w.length → i < liq.length →
      j < (w.getD i []).length → j < (liq.getD i []).length →
      (liq.getD i []).getD j true = false →
      ((repair_bad_days w liq tol).getD i []).getD j 0 = 0) ∧
    (∀ row ∈ repair_bad_days w liq tol,
      (∀ x ∈ row, x = 0) ∨ |grossExposure row - 1| ≤ tol) := by
  constructor
  · intro i j hi hi' hj hj' hliq
    rw [repair_bad_days, getD_zipWith _ w liq i hi hi' [] []]
    exact repairDay_illiquid_zero _ _ tol j hj hj' hliq
  · intro row hrow
    rcases List.mem_iff_getElem.1 hrow with ⟨k, hk, hkeq⟩
    have hklen : k < (List.zipWith (fun row lrow => repairDay row lrow tol) w liq).length := by
      simpa [repair_bad_days] using hk
    have hkw : k < w.length := by
      simp only [List.length_zipWith] at hklen
      exact lt_of_lt_of_le hklen (Nat.min_le_left _ _)
    have hkl : k < liq.length := by
      simp only [List.length_zipWith] at hklen
      exact lt_of_lt_of_le hklen (Nat.min_le_right _ _)
    have h1 : (repair_bad_days w liq tol).getD k [] = row := by
      rw [List.getD_eq_getElem _ _ hk, hkeq]
    simp only [repair_bad_days] at h1
    rw [getD_zipWith _ w liq k hkw hkl [] []] at h1
    rw [← h1, repairDay]
    by_cases hflag :
        tol < |grossExposure (fillna0 (normalizeRow
          (zeroIlliquidRow (w.getD k []) (liq.getD k [])))) - 1|
    · rw [if_pos hflag]
      left
      intro x hx
      exact List.eq_of_mem_replicate hx
    · rw [if_neg hflag]
      right
      exact le_of_not_lt hflag

/-- Witness for C2: one day, second asset illiquid, tolerance 0. -/
theorem repair_bad_days_spec_witness :
    ((repair_bad_days [[some 5, some 5]] [[true, false]] 0).getD 0 []).getD 1 0 = 0 :=
  (repair_bad_days_spec [[some 5, some 5]] [[true, false]] 0).1 0 1
    (by decide) (by decide) (by decide) (by decide) (by decide)

/-- Modelled from the spec: one cell of `qne.mix_weights` — take the
candidate where the selector mask holds, else the fallback. -/
def selectCell (m : Bool) (c fb : Option ℚ) : Option ℚ :=
  if m then c else fb

/-- Modelled from the spec: one day of the blend — cell-wise selection. -/
def selectRow (mask : List Bool) (cand fall : List (Option ℚ)) : List (Option ℚ) :=
  List.zipWith (fun m p => selectCell m p.1 p.2) mask (cand.zip fall)

/-- Modelled from the spec: `qne.mix_weights` is called by the notebook but
its implementation is not part of this repository.  Per the spec's `blend`
contract: cell-wise selection between candidate and fallback, then daily
renormalization. -/
def blend (cand fall : List (List (Option ℚ))) (mask : List (List Bool)) :
    List (List ℚ) :=
  normalize (List.zipWith (fun mrow p => selectRow mrow p.1 p.2) mask (cand.zip fall))

theorem selectRow_self (r : List (Option ℚ)) (m : List Bool)
    (h : r.length = m.length) : selectRow m r r = r := by
  induction r generalizing m with
  | nil => simp [selectRow]
  | cons x r ih =>
    cases m with
    | nil => cases h
    | cons b m =>
      simp only [selectRow, List.zip_cons_cons, List.zipWith_cons_cons, selectCell,
        ite_self, List.cons.injEq, true_and]
      exact ih m (Nat.succ_injective h)

/-- Claim C3: blending a candidate with itself under any selector mask of
the same shape is exactly the plain normalization of the candidate. -/
theorem blend_self_eq_normalize (cand : List (List (Option ℚ)))
    (mask : List (List Bool))
    (hshape : cand.map List.length = mask.map List.length) :
    blend cand cand mask = normalize cand := by
  rw [blend]
  congr 1
  induction cand generalizing mask with
  | nil => simp
  | cons r cand ih =>
    cases mask with
    | nil => cases hshape
    | cons mrow mask =>
      simp only [List.map_cons, List.cons.injEq] at hshape
      simp only [List.zip_cons_cons, List.zipWith_cons_cons, List.cons.injEq]
      exact ⟨selectRow_self r mrow hshape.1, ih mask hshape.2⟩

/-- Witness for C3 at a concrete candidate and mask. -/
theorem blend_self_eq_normalize_witness :
    blend [[some 1, none], [some 2, some (-2)]] [[some 1, none], [some 2, some (-2)]]
        [[true, false], [false, true]] =
      normalize [[some 1, none], [some 2, some (-2)]] :=
  blend_self_eq_normalize _ _ (by decide)

/-- Weighted sum over assets: the dot product of a row of weights with a
row of per-asset quantities. -/
def dot (xs ys : List ℚ) : ℚ :=
  (List.zipWith (fun a b => a * b) xs ys).sum

/-- Entrywise absolute position change between two rows of weights. -/
def absDiff (xs ys : List ℚ) : List ℚ :=
  List.zipWith (fun a b => |a - b|) xs ys

/-- Modelled from the spec: the prior-day position used by the slippage
charge inside `qnstats.calc_stat` (not part of this repository) — the
previous day's weights, or an all-zero position on the first day. -/
def priorWeights (w : List (List ℚ)) (t : Nat) : List ℚ :=
  if t = 0 then List.replicate (w.getD 0 []).length 0 else w.getD (t - 1) []

/-- Modelled from the spec: day `t` of the portfolio return — weighted
asset return minus slippage charged on the absolute position change. -/
def portfolioReturnAt (w r s : List (List ℚ)) (t : Nat) : ℚ :=
  dot (w.getD t []) (r.getD t []) -
    dot (absDiff (w.getD t []) (priorWeights w t)) (s.getD t [])

/-- Modelled from the spec: the slippage-adjusted daily portfolio return
series computed by `qnstats.calc_stat`. -/
def portfolio_return (w r s : List (List ℚ)) : List ℚ :=
  (List.range w.length).map (portfolioReturnAt w r s)

theorem dot_absDiff_self (xs ys : List ℚ) : dot (absDiff xs xs) ys = 0 := by
  induction xs generalizing ys with
  | nil => simp [dot, absDiff]
  | cons x xs ih =>
    cases ys with
    | nil => simp [dot, absDiff]
    | cons y ys =>
      simp only [absDiff, dot, List.zipWith_cons_cons, List.sum_cons] at ih ⊢
      rw [ih ys]
      simp

theorem getD_portfolio_return (w r s : List (List ℚ)) (t : Nat) (ht : t < w.length) :
    (portfolio_return w r s).getD t 0 = portfolioReturnAt w r s t := by
  have ht' : t < (portfolio_return w r s).length := by
    simpa [portfolio_return] using ht
  rw [List.getD_eq_getElem _ _ ht']
  simp [portfolio_return]

/-- Claim C4: the daily portfolio return is the weighted asset return minus
slippage on the absolute position change, the first day's change being
measured from an all-zero prior position; hence a position held unchanged
from the previous day is charged no slippage that day. -/
theorem portfolio_return_slippage (w r s : List (List ℚ)) :
    (∀ t, t < w.length → (portfolio_return w r s).getD t 0 =
      dot (w.getD t []) (r.getD t []) -
        dot (absDiff (w.getD t []) (priorWeights w t)) (s.getD t [])) ∧
    priorWeights w 0 = List.replicate (w.getD 0 []).length 0 ∧
    (∀ t, 0 < t → t < w.length → w.getD t [] = w.getD (t - 1) [] →
      (portfolio_return w r s).getD t 0 = dot (w.getD t []) (r.getD t [])) := by
  refine ⟨?_, ?_, ?_⟩
  · intro t ht
    rw [getD_portfolio_return w r s t ht, portfolioReturnAt]
  · rw [priorWeights, if_pos rfl]
  · intro t ht0 ht hconst
    rw [getD_portfolio_return w r s t ht, portfolioReturnAt, priorWeights,
      if_neg (Nat.pos_iff_ne_zero.1 ht0), ← hconst, dot_absDiff_self]
    ring

/-- Witness for C4: two days, one asset, position held constant on the
second day — the second day's return carries no slippage term. -/
theorem portfolio_return_slippage_witness :
    (portfolio_return [[1], [1]] [[1/10], [2/10]] [[3], [3]]).getD 1 0 =
      dot [1] [2/10] :=
  (portfolio_return_slippage [[1], [1]] [[1/10], [2/10]] [[3], [3]]).2.2 1
    (by decide) (by decide) (by decide)

/-- Modelled from the spec: the equity curve computed inside
`qnstats.calc_stat` — the running product of `1 + return` starting from an
initial capital of 1. -/
def cumprodFrom (acc : ℚ) : List ℚ → List ℚ
  | [] => []
  | r :: rs => acc * (1 + r) :: cumprodFrom (acc * (1 + r)) rs

/-- Modelled from the spec: `equity_curve(returns)`, seeded at 1.0 before
the first observation. -/
def equity_curve (rs : List ℚ) : List ℚ :=
  cumprodFrom 1 rs

theorem getD_cumprodFrom (acc : ℚ) (rs : List ℚ) (t : Nat) (ht : t < rs.length) :
    (cumprodFrom acc rs).getD t 0 =
      acc * ((rs.take (t + 1)).map (fun r => 1 + r)).prod := by
  induction rs generalizing acc t with
  | nil => cases ht
  | cons r rs ih =>
    cases t with
    | zero => simp [cumprodFrom]
    | succ n =>
      simp only [cumprodFrom, List.getD_cons_succ, List.take_succ_cons,
        List.map_cons, List.prod_cons]
      rw [ih (acc * (1 + r)) n (Nat.lt_of_succ_lt_succ ht)]
      ring

theorem cumprodFrom_pos (acc : ℚ) (rs : List ℚ) (hacc : 0 < acc)
    (hrs : ∀ r ∈ rs, -1 < r) : ∀ e ∈ cumprodFrom acc rs, 0 < e := by
  induction rs generalizing acc with
  | nil => intro e he; cases he
  | cons r rs ih =>
    intro e he
    have hfac : 0 < acc * (1 + r) := by
      have : 0 < 1 + r := by
        have := hrs r (List.mem_cons_self r rs)
        linarith
      exact mul_pos hacc this
    rcases List.mem_cons.1 he with rfl | he
    · exact hfac
    · exact ih (acc * (1 + r)) hfac (fun x hx => hrs x (List.mem_cons_of_mem r hx)) e he

/-- Claim C5: for every return series the equity curve is the cumulative
product of `1 + return` seeded at 1.0, and it is strictly positive whenever
every return exceeds -1. -/
theorem equity_curve_spec (rs : List ℚ) :
    (∀ t, t < rs.length →
      (equity_curve rs).getD t 0 = ((rs.take (t + 1)).map (fun r => 1 + r)).prod) ∧
    ((∀ r ∈ rs, -1 < r) → ∀ e ∈ equity_curve rs, 0 < e) := by
  constructor
  · intro t ht
    rw [equity_curve, getD_cumprodFrom 1 rs t ht, one_mul]
  · intro hrs
    exact cumprodFrom_pos 1 rs one_pos hrs

/-- Witness for C5 at a concrete return series (one return below -1, where
the cumulative-product identity still holds). -/
theorem equity_curve_spec_witness :
    (equity_curve [1/2, -3/2]).getD 1 0 =
      (([(1:ℚ)/2, -3/2].take 2).map (fun r => 1 + r)).prod :=
  (equity_curve_spec [1/2, -3/2]).1 1 (by decide)

/-- Tail of the running maximum, carrying the maximum seen so far. -/
def rmGo (acc : ℚ) : List ℚ → List ℚ
  | [] => []
  | x :: xs => max acc x :: rmGo (max acc x) xs

/-- Modelled from the spec: the running maximum over all prior and current
days of the equity series, as used by `qnstats.calc_underwater` (not part
of this repository). -/
def running_max : List ℚ → List ℚ
  | [] => []
  | x :: xs => x :: rmGo x xs

/-- Modelled from the spec: `underwater(equity) = equity / running_max(equity) - 1`. -/
def underwater (es : List ℚ) : List ℚ :=
  List.zipWith (fun e m => e / m - 1) es (running_max es)

theorem length_rmGo (acc : ℚ) (xs : List ℚ) : (rmGo acc xs).length = xs.length := by
  induction xs generalizing acc with
  | nil => rfl
  | cons x xs ih => simp [rmGo, ih]

theorem length_running_max (es : List ℚ) : (running_max es).length = es.length := by
  cases es with
  | nil => rfl
  | cons x xs => simp [running_max, length_rmGo]

theorem le_foldl_max_init (xs : List ℚ) (acc : ℚ) : acc ≤ xs.foldl max acc := by
  induction xs generalizing acc with
  | nil => exact le_refl acc
  | cons x xs ih => exact le_trans (le_max_left acc x) (ih (max acc x))

theorem le_foldl_max_mem (xs : List ℚ) (acc b : ℚ) (hb : b ∈ xs) :
    b ≤ xs.foldl max acc := by
  induction xs generalizing acc with
  | nil => cases hb
  | cons x xs ih =>
    rcases List.mem_cons.1 hb with rfl | hb
    · exact le_trans (le_max_right acc b) (le_foldl_max_init xs (max acc b))
    · exact ih (max acc x) hb

theorem foldl_max_le (xs : List ℚ) (acc b : ℚ) (hacc : acc ≤ b)
    (hall : ∀ x ∈ xs, x ≤ b) : xs.foldl max acc ≤ b := by
  induction xs generalizing acc with
  | nil => exact hacc
  | cons x xs ih =>
    exact ih (max acc x) (max_le hacc (hall x (List.mem_cons_self x xs)))
      (fun y hy => hall y (List.mem_cons_of_mem x hy))

theorem getD_rmGo (xs : List ℚ) (acc : ℚ) (t : Nat) (ht : t < xs.length) :
    (rmGo acc xs).getD t 0 = (xs.take (t + 1)).foldl max acc := by
  induction xs generalizing acc t with
  | nil => cases ht
  | cons x xs ih =>
    cases t with
    | zero => simp [rmGo]
    | succ n =>
      simp only [rmGo, List.getD_cons_succ, List.take_succ_cons, List.foldl_cons]
      exact ih (max acc x) n (Nat.lt_of_succ_lt_succ ht)

theorem getD_running_max (es : List ℚ) (t : Nat) (ht : t < es.length) :
    (running_max es).getD t 0 = (es.take (t + 1)).foldl max (es.getD 0 0) := by
  cases es with
  | nil => cases ht
  | cons x xs =>
    cases t with
    | zero => simp [running_max]
    | succ n =>
      simp only [running_max, List.getD_cons_succ, List.take_succ_cons,
        List.foldl_cons, List.getD_cons_zero, max_self]
      exact getD_rmGo xs x n (Nat.lt_of_succ_lt_succ ht)

theorem getD_mem_take_succ (es : List ℚ) (t : Nat) (ht : t < es.length) :
    es.getD t 0 ∈ es.take (t + 1) := by
  rw [List.take_succ, List.getD_eq_getElem _ _ ht]
  refine List.mem_append_right _ ?_
  rw [List.getElem?_eq_getElem ht]
  simp

theorem getD_le_running_max (es : List ℚ) (t : Nat) (ht : t < es.length) :
    es.getD t 0 ≤ (running_max es).getD t 0 := by
  rw [getD_running_max es t ht]
  exact le_foldl_max_mem _ _ _ (getD_mem_take_succ es t ht)

theorem getD_underwater (es : List ℚ) (t : Nat) (ht : t < es.length) :
    (underwater es).getD t 0 = es.getD t 0 / (running_max es).getD t 0 - 1 := by
  rw [underwater,
    getD_zipWith _ es (running_max es) t ht (by rw [length_running_max]; exact ht) 0 0]

/-- Counterexample to C6 as stated: on the (negative) equity series
`[-1, -4]` the underwater value on day 1 is `3 > 0`. -/
theorem underwater_pos_on_negative_equity :
    (underwater [-1, -4]).getD 1 0 = 3 ∧
      ¬ ((underwater [-1, -4]).getD 1 0 ≤ 0) := by
  have hrm : running_max [-1, -4] = [(-1 : ℚ), -1] := by
    simp only [running_max, rmGo]
    rw [max_eq_left (by norm_num : (-4 : ℚ) ≤ -1)]
  have h : (underwater [-1, -4]).getD 1 0 = 3 := by
    rw [underwater, hrm]
    simp only [List.zipWith_cons_cons, List.zipWith_nil_right, List.zipWith_nil_left,
      List.getD_cons_succ, List.getD_cons_zero]
    norm_num
  refine ⟨h, ?_⟩
  rw [h]
  norm_num

/-- Claim C6 (amended with strictly positive equity, as produced by the
pipeline): underwater equals equity over its running maximum minus 1, the
running maximum is non-decreasing, every underwater value is ≤ 0, and the
underwater value is 0 on every day where equity reaches a new peak. -/
theorem underwater_spec (es : List ℚ) (hpos : ∀ e ∈ es, 0 < e) :
    (∀ t, t < es.length → (underwater es).getD t 0 =
      es.getD t 0 / (running_max es).getD t 0 - 1) ∧
    (∀ t, t + 1 < es.length →
      (running_max es).getD t 0 ≤ (running_max es).getD (t + 1) 0) ∧
    (∀ u ∈ underwater es, u ≤ 0) ∧
    (∀ t, t < es.length → (∀ i, i ≤ t → es.getD i 0 ≤ es.getD t 0) →
      (underwater es).getD t 0 = 0) := by
  have hmem : ∀ t, t < es.length → es.getD t 0 ∈ es := by
    intro t ht
    rw [List.getD_eq_getElem _ _ ht]
    exact List.getElem_mem ht
  have hrmpos : ∀ t, t < es.length → 0 < (running_max es).getD t 0 := by
    intro t ht
    exact lt_of_lt_of_le (hpos _ (hmem t ht)) (getD_le_running_max es t ht)
  refine ⟨fun t ht => getD_underwater es t ht, ?_, ?_, ?_⟩
  · intro t ht
    have ht0 : t < es.length := lt_trans (Nat.lt_succ_self t) ht
    rw [getD_running_max es t ht0, getD_running_max es (t + 1) ht,
      List.take_succ (l := es) (n := t + 1), List.foldl_append]
    exact le_foldl_max_init _ _
  · intro u hu
    rcases List.mem_iff_getElem.1 hu with ⟨t, hlt, rfl⟩
    have ht : t < es.length := by
      simpa [underwater, List.length_zipWith, length_running_max] using hlt
    rw [← List.getD_eq_getElem _ 0 hlt, getD_underwater es t ht, sub_nonpos]
    exact (div_le_one (hrmpos t ht)).2 (getD_le_running_max es t ht)
  · intro t ht hpeak
    have hrm : (running_max es).getD t 0 = es.getD t 0 := by
      rw [getD_running_max es t ht]
      refine le_antisymm ?_ (le_foldl_max_mem _ _ _ (getD_mem_take_succ es t ht))
      refine foldl_max_le _ _ _ (hpeak 0 (Nat.zero_le t)) ?_
      intro x hx
      rcases List.mem_iff_getElem.1 hx with ⟨i, hi, rfl⟩
      have hilen : i < es.length := by
        have := hi
        simp only [List.length_take, lt_min_iff] at this
        exact this.2
      have hit : i ≤ t := by
        have := hi
        simp only [List.length_take, lt_min_iff] at this
        exact Nat.lt_succ_iff.1 this.1
      rw [List.getElem_take, ← List.getD_eq_getElem _ 0 hilen]
      exact hpeak i hit
    rw [getD_underwater es t ht, hrm,
      div_self (ne_of_gt (hpos _ (hmem t ht)))]
    ring

/-- Witness for C6's amended theorem at a concrete positive equity curve. -/
theorem underwater_spec_witness :
    (underwater [1, 2]).getD 1 0 =
      ([1, 2] : List ℚ).getD 1 0 / (running_max [1, 2]).getD 1 0 - 1 :=
  (underwater_spec [1, 2] (by norm_num)).1 1 (by decide)

/-- Modelled from the spec: the valid (non-missing) returns inside the
trailing window of `w` periods ending at time `t`, as used by the rolling
statistics of `qnstats` (not part of this repository). -/
def windowVals (rs : List (Option ℚ)) (w t : Nat) : List ℚ :=
  ((rs.take (t + 1)).drop (t + 1 - w)).filterMap id

/-- Modelled from the spec: rolling mean at time `t`, missing when fewer
than `min_periods` valid observations are in the window (or none at all). -/
def rollingMeanAt (rs : List (Option ℚ)) (w mp t : Nat) : Option ℚ :=
  let vs := windowVals rs w t
  if vs.length < mp ∨ vs.length = 0 then none
  else some (vs.sum / vs.length)

/-- Modelled from the spec: annualized rolling mean return (252 periods per
year). -/
def annMeanAt (rs : List (Option ℚ)) (w mp t : Nat) : Option ℚ :=
  (rollingMeanAt rs w mp t).map (fun m => 252 * m)

/-- Sample variance (denominator `n - 1`) of a list of values. -/
def sampleVar (vs : List ℚ) : ℚ :=
  (vs.map (fun v => (v - vs.sum / vs.length) ^ 2)).sum / (vs.length - 1)

/-- Modelled from the spec: rolling sample variance at time `t`, missing
when fewer than `min_periods` (or fewer than two) valid observations are
in the window. -/
def rollingVarAt (rs : List (Option ℚ)) (w mp t : Nat) : Option ℚ :=
  let vs := windowVals rs w t
  if vs.length < mp ∨ vs.length < 2 then none
  else some (sampleVar vs)

/-- Modelled from the spec: annualized rolling volatility, the square root
of `252 ×` the rolling sample variance. -/
noncomputable def annVolAt (rs : List (Option ℚ)) (w mp t : Nat) : Option ℝ :=
  (rollingVarAt rs w mp t).map (fun v : ℚ => Real.sqrt (252 * (v : ℝ)))

/-- Modelled from the spec: annualized rolling Sharpe ratio — annualized
rolling mean over annualized rolling volatility, missing (never a thrown
error, never an infinity) where either input is missing or the volatility
is zero. -/
noncomputable def annSharpeAt (rs : List (Option ℚ)) (w mp t : Nat) : Option ℝ :=
  match annMeanAt rs w mp t, rollingVarAt rs w mp t with
  | some m, some v =>
      if v = 0 then none else some ((m : ℝ) / Real.sqrt (252 * (v : ℝ)))
  | _, _ => none

theorem sampleVar_nonneg (vs : List ℚ) (h2 : 2 ≤ vs.length) : 0 ≤ sampleVar vs := by
  rw [sampleVar]
  refine div_nonneg (List.sum_nonneg ?_) ?_
  · intro x hx
    rcases List.mem_map.1 hx with ⟨v, _, rfl⟩
    exact sq_nonneg _
  · have : (2 : ℚ) ≤ (vs.length : ℚ) := by exact_mod_cast h2
    linarith

/-- Claim C7: the annualized rolling Sharpe ratio is the missing-value
marker wherever fewer than `min_periods` valid returns are in the trailing
window, and wherever the rolling volatility is exactly 0. -/
theorem annSharpe_missing (rs : List (Option ℚ)) (w mp t : Nat)
    (h : (windowVals rs w t).length < mp ∨ annVolAt rs w mp t = some 0) :
    annSharpeAt rs w mp t = none := by
  rcases h with h | h
  · have hmean : annMeanAt rs w mp t = none := by
      rw [annMeanAt, rollingMeanAt]
      rw [if_pos (Or.inl h)]
      rfl
    simp [annSharpeAt, hmean]
  · rw [annVolAt] at h
    rcases Option.map_eq_some'.1 h with ⟨v, hv, hsq⟩
    have hcond : ¬((windowVals rs w t).length < mp ∨ (windowVals rs w t).length < 2) := by
      intro hc
      rw [rollingVarAt] at hv
      simp only [if_pos hc] at hv
      cases hv
    have hveq : v = sampleVar (windowVals rs w t) := by
      rw [rollingVarAt] at hv
      simp only [if_neg hcond] at hv
      exact (Option.some_inj.1 hv).symm
    have hv0 : v = 0 := by
      have hle : 252 * (v : ℝ) ≤ 0 := Real.sqrt_eq_zero'.1 hsq
      have hge : 0 ≤ v := by
        rw [hveq]
        exact sampleVar_nonneg _ (le_of_not_lt (fun hlt => hcond (Or.inr hlt)))
      have h1 : (v : ℝ) ≤ 0 := by linarith
      have h2 : (0 : ℝ) ≤ (v : ℝ) := by exact_mod_cast hge
      exact_mod_cast le_antisymm h1 h2
    cases hm : annMeanAt rs w mp t with
    | none => simp [annSharpeAt, hm]
    | some m =>
      rw [annSharpeAt.eq_def, hm, hv, hv0]
      simp

/-- Witness for C7: three observed days with a two-day window and
`min_periods = 2`, evaluated where only one valid return is in the window. -/
theorem annSharpe_missing_witness :
    annSharpeAt [some (1/100), none, none] 2 2 2 = none :=
  annSharpe_missing [some (1/100), none, none] 2 2 2 (Or.inl (by decide))

/-- The full-sample window: with `window = min_periods = N` evaluated at
the last point, the window holds exactly the whole series. -/
theorem windowVals_full (rs : List ℚ) :
    windowVals (rs.map some) rs.length (rs.length - 1) = rs := by
  cases rs with
  | nil => rfl
  | cons x xs =>
    rw [windowVals]
    have hlen : (x :: xs).length - 1 + 1 = (x :: xs).length := rfl
    rw [hlen, ← List.length_map (x :: xs) some, List.take_length, Nat.sub_self,
      List.drop_zero, List.filterMap_map]
    simp

/-- The headline (global) annualized mean return as computed by
`print_stat`: the rolling computation with `max_periods = min_periods =
days` evaluated at the last time point. -/
def headlineMean (rets : List (Option ℚ)) : Option ℚ :=
  annMeanAt rets rets.length rets.length (rets.length - 1)

/-- The headline (global) annualized volatility as computed by `print_stat`. -/
noncomputable def headlineVol (rets : List (Option ℚ)) : Option ℝ :=
  annVolAt rets rets.length rets.length (rets.length - 1)

/-- The headline (global) annualized Sharpe ratio as computed by
`print_stat`. -/
noncomputable def headlineSharpe (rets : List (Option ℚ)) : Option ℝ :=
  annSharpeAt rets rets.length rets.length (rets.length - 1)

/-- Spec reading of the global annualized mean return: one computation over
the whole sample. -/
def globalMeanAnn (rs : List ℚ) : Option ℚ :=
  if rs.length = 0 then none else some (252 * (rs.sum / rs.length))

/-- Spec reading of the global annualized volatility: one computation over
the whole sample. -/
noncomputable def globalVolAnn (rs : List ℚ) : Option ℝ :=
  if rs.length < 2 then none else some (Real.sqrt (252 * (sampleVar rs : ℝ)))

/-- Spec reading of the global annualized Sharpe ratio: global mean over
global volatility, undefined when the volatility is zero or undefined. -/
noncomputable def globalSharpeAnn (rs : List ℚ) : Option ℝ :=
  if rs.length < 2 ∨ sampleVar rs = 0 then none
  else some (((252 * (rs.sum / rs.length) : ℚ) : ℝ) / Real.sqrt (252 * (sampleVar rs : ℝ)))

/-- Claim C8: for a fully observed return series the headline mean return,
volatility and Sharpe ratio of `print_stat` (rolling computation with
`window = min_periods = N`, last point) coincide with the one-shot global
computations over the whole sample. -/
theorem headline_eq_global (rs : List ℚ) :
    headlineMean (rs.map some) = globalMeanAnn rs ∧
    headlineVol (rs.map some) = globalVolAnn rs ∧
    headlineSharpe (rs.map some) = globalSharpeAnn rs := by
  have hN : (rs.map some).length = rs.length := List.length_map rs some
  have hwin : windowVals (rs.map some) rs.length (rs.length - 1) = rs :=
    windowVals_full rs
  have hmean : annMeanAt (rs.map some) (rs.map some).length (rs.map some).length
      ((rs.map some).length - 1) = globalMeanAnn rs := by
    rw [annMeanAt, rollingMeanAt]
    simp only [hN, hwin]
    by_cases h0 : rs.length = 0
    · rw [if_pos (Or.inr h0), globalMeanAnn, if_pos h0]
      rfl
    · rw [if_neg (by omega), globalMeanAnn, if_neg h0]
      rfl
  have hvar : rollingVarAt (rs.map some) (rs.map some).length (rs.map some).length
      ((rs.map some).length - 1) =
      (if rs.length < 2 then none else some (sampleVar rs)) := by
    rw [rollingVarAt]
    simp only [hN, hwin]
    by_cases h2 : rs.length < 2
    · rw [if_pos (Or.inr h2), if_pos h2]
    · rw [if_neg (by omega), if_neg h2]
  refine ⟨hmean, ?_, ?_⟩
  · rw [headlineVol, annVolAt, hvar, globalVolAnn]
    by_cases h2 : rs.length < 2
    · rw [if_pos h2, if_pos h2]
      rfl
    · rw [if_neg h2, if_neg h2]
      rfl
  · rw [headlineSharpe, annSharpeAt.eq_def]
    rw [hmean, hvar, globalSharpeAnn]
    by_cases h2 : rs.length < 2
    · rw [if_pos h2, if_pos (Or.inl h2)]
      cases hg : globalMeanAnn rs with
      | none => rfl
      | some m => rfl
    · rw [if_neg h2]
      have h0 : rs.length ≠ 0 := by omega
      rw [globalMeanAnn, if_neg h0]
      by_cases hv : sampleVar rs = 0
      · rw [if_pos (Or.inr hv)]
        simp [hv]
      · rw [if_neg (by push_neg; exact ⟨by omega, hv⟩)]
        simp [hv]

/-- Error taxonomy of the correlation checker. -/
inductive CorrErr where
  | insufficientOverlap
  deriving DecidableEq

/-- Modelled from the spec: the overlapping days of the candidate and one
reference series — value pairs of the days where both are present. -/
def overlapDays (cand other : List (Option ℚ)) : List (ℚ × ℚ) :=
  (List.zipWith (fun a b =>
    match a, b with
    | some x, some y => some (x, y)
    | _, _ => none) cand other).filterMap id

/-- Modelled from the spec: Pearson correlation of a list of paired
observations. -/
noncomputable def pearson (ps : List (ℚ × ℚ)) : ℝ :=
  let mx : ℚ := (ps.map Prod.fst).sum / ps.length
  let my : ℚ := (ps.map Prod.snd).sum / ps.length
  (((ps.map (fun p => (p.1 - mx) * (p.2 - my))).sum : ℚ) : ℝ) /
    (Real.sqrt (((ps.map (fun p => (p.1 - mx) ^ 2)).sum : ℚ) : ℝ) *
      Real.sqrt (((ps.map (fun p => (p.2 - my) ^ 2)).sum : ℚ) : ℝ))

/-- Modelled from the spec: one reference comparison of
`qnstats.print_correlation` (not part of this repository) —
`InsufficientOverlap` when fewer than two common days remain, otherwise the
Pearson correlation over the common days. -/
noncomputable def checkOne (cand other : List (Option ℚ)) : Except CorrErr ℝ :=
  if (overlapDays cand other).length < 2 then Except.error CorrErr.insufficientOverlap
  else Except.ok (pearson (overlapDays cand other))

/-- Modelled from the spec: the correlation check runs every reference
comparison independently, pairing each reference id with its own outcome. -/
noncomputable def check_correlation (cand : List (Option ℚ))
    (refs : List (String × List (Option ℚ))) : List (String × Except CorrErr ℝ) :=
  refs.map (fun p => (p.1, checkOne cand p.2))

/-- A comparison outcome is reported as a violation when it succeeded with
a correlation exceeding the threshold. -/
def violates (θ : ℝ) (res : Except CorrErr ℝ) : Prop :=
  ∃ c, res = Except.ok c ∧ θ < c

/-- Default result cell used by positional access into the result list. -/
def noResult : String × Except CorrErr ℝ :=
  ("", Except.error CorrErr.insufficientOverlap)

/-- Default reference cell used by positional access into the input list. -/
def emptyRef : String × List (Option ℚ) :=
  ("", [])

theorem getD_check_correlation (cand : List (Option ℚ))
    (refs : List (String × List (Option ℚ))) (j : Nat) (hj : j < refs.length) :
    (check_correlation cand refs).getD j noResult =
      ((refs.getD j emptyRef).1, checkOne cand (refs.getD j emptyRef).2) := by
  have hj' : j < (check_correlation cand refs).length := by
    simpa [check_correlation] using hj
  rw [List.getD_eq_getElem _ _ hj', List.getD_eq_getElem _ _ hj]
  simp [check_correlation]

/-- Claim C9: each reference comparison is computed over the intersection of
available days; a reference with fewer than two overlapping days fails with
`InsufficientOverlap` while every other comparison still executes, each
with enough overlap yielding its own Pearson correlation, reported as a
violation exactly when it exceeds the threshold. -/
theorem check_correlation_isolated (cand : List (Option ℚ))
    (refs : List (String × List (Option ℚ))) (i : Nat) (hi : i < refs.length)
    (hbad : (overlapDays cand (refs.getD i emptyRef).2).length < 2) :
    (check_correlation cand refs).getD i noResult =
      ((refs.getD i emptyRef).1, Except.error CorrErr.insufficientOverlap) ∧
    (∀ j, j < refs.length →
      (check_correlation cand refs).getD j noResult =
        ((refs.getD j emptyRef).1, checkOne cand (refs.getD j emptyRef).2)) ∧
    (∀ j, j < refs.length → 2 ≤ (overlapDays cand (refs.getD j emptyRef).2).length →
      (check_correlation cand refs).getD j noResult =
        ((refs.getD j emptyRef).1,
          Except.ok (pearson (overlapDays cand (refs.getD j emptyRef).2)))) ∧
    (∀ j, j < refs.length → 2 ≤ (overlapDays cand (refs.getD j emptyRef).2).length →
      ∀ θ : ℝ,
        (violates θ ((check_correlation cand refs).getD j noResult).2 ↔
          θ < pearson (overlapDays cand (refs.getD j emptyRef).2))) := by
  have hok : ∀ j, j < refs.length →
      2 ≤ (overlapDays cand (refs.getD j emptyRef).2).length →
      (check_correlation cand refs).getD j noResult =
        ((refs.getD j emptyRef).1,
          Except.ok (pearson (overlapDays cand (refs.getD j emptyRef).2))) := by
    intro j hj h2
    rw [getD_check_correlation cand refs j hj, checkOne,
      if_neg (by omega)]
  refine ⟨?_, fun j hj => getD_check_correlation cand refs j hj, hok, ?_⟩
  · rw [getD_check_correlation cand refs i hi, checkOne, if_pos hbad]
  · intro j hj h2 θ
    rw [hok j hj h2]
    constructor
    · rintro ⟨c, hc, hθ⟩
      have : pearson (overlapDays cand (refs.getD j emptyRef).2) = c :=
        Except.ok.inj hc
      rwa [this]
    · intro hθ
      exact ⟨pearson (overlapDays cand (refs.getD j emptyRef).2), rfl, hθ⟩

/-- Witness for C9: two references — the first, with a single overlapping
day, fails alone with `InsufficientOverlap`. -/
theorem check_correlation_isolated_witness :
    (check_correlation [some 1, some 2, some 3]
        [("a", [some 1, none, none]), ("b", [some 1, some 2, none])]).getD 0 noResult =
      (([("a", [some 1, none, none]), ("b", [some 1, some 2, none])].getD 0 emptyRef).1,
        Except.error CorrErr.insufficientOverlap) :=
  (check_correlation_isolated [some 1, some 2, some 3]
    [("a", [some 1, none, none]), ("b", [some 1, some 2, none])] 0
    (by decide) (by decide)).1

end BuyHold
